import Mathlib

/-!
Verification of the `lazy_copy` crate (`src/lib.rs`).

The crate exports a single routine

  pub fn copy<R: io::Read, P: AsRef<Path>>(mut source: R, dest: P) -> io::Result<u64>

which synchronizes a destination file with a source byte stream, writing to the
destination only from the first diverging 8192-byte chunk onwards and finally
truncating the destination to the number of source bytes.

The embedding below models the destination file as a byte list together with a
cursor (`FileState`), and runs the routine as a fuel-indexed interpreter that
additionally records a trace of I/O events (reads, rewinds, writes, the final
truncation) and threads a fault-injection oracle: the `k`-th I/O call fails
with error code `e` exactly when the oracle list holds `some e` at index `k`.
With the empty oracle (`copy`) every I/O call succeeds, which models the
deterministic semantics of reading a byte slice and a regular file:
every read returns `min BUFFER_SIZE remaining` bytes.

Rust's `io::copy(&mut source, &mut dest)` (used once the comparison loop has
found a divergence) is modelled as a single bulk operation that writes all
remaining source bytes at the destination cursor; its internal chunking is not
observable in the file contents, the returned count, or the error behaviour
modelled here.
-/

namespace LazyCopy

/-- Chunk size used by the routine: `const BUFFER_SIZE: usize = 8 * 1024`. -/
def BUFFER_SIZE : Nat := 8 * 1024

/-- A seekable, readable and writable file: its byte content (bytes as `Nat`)
and the current cursor position. -/
structure FileState where
  content : List Nat
  pos : Nat
deriving DecidableEq

/-- Rust `write_all` on a file at the current cursor: overwrite bytes in place
starting at `pos`, extending the file if the data runs past the end.  (Writing
with the cursor beyond the end of the file fills the gap with zero bytes, as on
a POSIX file; the routine never actually does this, see the cursor invariant.) -/
def fwrite (f : FileState) (data : List Nat) : FileState :=
  ⟨f.content.take f.pos ++ List.replicate (f.pos - f.content.length) 0 ++ data ++
      f.content.drop (f.pos + data.length),
    f.pos + data.length⟩

/-- Rust `File::set_len n`: truncate to `n` bytes (or extend with zero bytes if
the file is shorter); the cursor is unchanged. -/
def fsetLen (f : FileState) (n : Nat) : FileState :=
  ⟨f.content.take n ++ List.replicate (n - f.content.length) 0, f.pos⟩

/-- Failure outcomes of the interpreter: an injected I/O error carrying its
code, the error a relative seek to a negative offset would raise, and fuel
exhaustion of the interpreter (proved unreachable for the fuel `copyF` uses). -/
inductive Err where
  | ioError (code : Nat)
  | negSeek
  | fuelOut
deriving DecidableEq

/-- Observable I/O events of one run, in order:
* `srcRead n` — `source.read` returned `n` bytes;
* `destRead pos bc n` — `dest.read` returned `n` bytes; `pos` is the cursor
  before the read (the chunk start) and `bc` the running `bytes_copied`;
* `rewind chunkStart posBefore off posAfter` — the backward
  `seek(SeekFrom::Current(off))`; `chunkStart` is the cursor at the start of
  the iteration, `posBefore`/`posAfter` the cursor around the seek;
* `write pos data` — `write_all` of `data` with the cursor at `pos`;
* `copyRest pos data` — the `io::copy` bulk write of all remaining source
  bytes `data` with the cursor at `pos`;
* `truncate oldLen newLen` — the final `set_len`. -/
inductive Event where
  | srcRead (n : Nat)
  | destRead (pos bc n : Nat)
  | rewind (chunkStart posBefore : Nat) (off : Int) (posAfter : Nat)
  | write (pos : Nat) (data : List Nat)
  | copyRest (pos : Nat) (data : List Nat)
  | truncate (oldLen newLen : Nat)
deriving DecidableEq

/-- Whether an event changes file content (a `write_all` or an `io::copy`). -/
def Event.isWrite : Event → Bool
  | .write _ _ => true
  | .copyRest _ _ => true
  | _ => false

/-- Fault oracle lookup: the outcome injected for the `k`-th I/O call
(`none` = the call succeeds). -/
def faultAt : List (Option Nat) → Nat → Option Nat
  | [], _ => none
  | f :: _, 0 => f
  | _ :: fs, n + 1 => faultAt fs n

/-- Result of the comparison loop: destination file state, `bytes_copied`,
next I/O call index, the events of the loop, and success or the error that
aborted it. -/
structure LoopResult where
  dest : FileState
  bc : Nat
  ops : Nat
  events : List Event
  result : Except Err Unit

/-- Final result of `copy`: destination file state, `bytes_copied`, total
I/O call count, the event trace, and `Ok(bytes_copied)` or the error. -/
structure CopyResult where
  dest : FileState
  bc : Nat
  ops : Nat
  events : List Event
  result : Except Err Nat

/-- The shared tail of the three divergence arms of the `match` in the loop:
seek backwards by the destination bytes just read (`dest_bytes_read`), then
`write_all` the source chunk, and — in the `Equal`-with-differing-content and
`Less` arms (`withRest = true`) — `io::copy` the remaining source bytes
`rest`.  `dest1` is the file after the destination read, `entryPos` the cursor
at the start of the iteration.  `k` indexes the next I/O call for the fault
oracle. -/
def rewriteTail (faults : List (Option Nat)) (rest : List Nat) (dest1 : FileState)
    (entryPos dest_bytes_read : Nat) (source_chunk : List Nat)
    (bc k : Nat) (withRest : Bool) : LoopResult :=
  match faultAt faults k with
  | some e => ⟨dest1, bc, k + 1, [], .error (.ioError e)⟩
  | none =>
    let target : Int := (dest1.pos : Int) + (-(dest_bytes_read : Int))
    if target < 0 then
      ⟨dest1, bc, k + 1, [], .error .negSeek⟩
    else
      let dest2 : FileState := ⟨dest1.content, target.toNat⟩
      let ev1 := [Event.rewind entryPos dest1.pos (-(dest_bytes_read : Int)) dest2.pos]
      match faultAt faults (k + 1) with
      | some e => ⟨dest2, bc, k + 2, ev1, .error (.ioError e)⟩
      | none =>
        let dest3 := fwrite dest2 source_chunk
        let ev2 := ev1 ++ [Event.write dest2.pos source_chunk]
        let bc1 := bc + source_chunk.length
        if withRest then
          match faultAt faults (k + 2) with
          | some e => ⟨dest3, bc1, k + 3, ev2, .error (.ioError e)⟩
          | none =>
            ⟨fwrite dest3 rest, bc1 + rest.length, k + 3,
              ev2 ++ [Event.copyRest dest3.pos rest], .ok ()⟩
        else
          ⟨dest3, bc1, k + 2, ev2, .ok ()⟩

/-- The comparison loop of `copy` (`loop { ... }` in `src/lib.rs`), as a
fuel-indexed interpreter.  Each iteration: read a source chunk (end the loop if
it is empty), read a destination chunk from the cursor, and three-way-compare
`dest_bytes_read` with `source_bytes_read`:
* equal counts and equal bytes — advance `bytes_copied`, next iteration;
* equal counts, differing bytes — rewind, overwrite, `io::copy` the rest, break;
* destination read more — rewind, overwrite, break;
* destination read fewer — rewind, overwrite, `io::copy` the rest, break.
The fuel only bounds the number of iterations; one unit per iteration suffices
because every new iteration consumes `BUFFER_SIZE > 0` source bytes. -/
def copyLoop (fuel : Nat) (faults : List (Option Nat)) (src : List Nat)
    (dest : FileState) (bc k : Nat) : LoopResult :=
  match fuel with
  | 0 => ⟨dest, bc, k, [], .error .fuelOut⟩
  | fuel + 1 =>
    match faultAt faults k with
    | some e => ⟨dest, bc, k + 1, [], .error (.ioError e)⟩
    | none =>
      let source_chunk := src.take BUFFER_SIZE
      if source_chunk.length = 0 then
        ⟨dest, bc, k + 1, [.srcRead 0], .ok ()⟩
      else
        match faultAt faults (k + 1) with
        | some e => ⟨dest, bc, k + 2, [.srcRead source_chunk.length], .error (.ioError e)⟩
        | none =>
          let dest_chunk := (dest.content.drop dest.pos).take BUFFER_SIZE
          let dest1 : FileState := ⟨dest.content, dest.pos + dest_chunk.length⟩
          let evs := [Event.srcRead source_chunk.length,
                      Event.destRead dest.pos bc dest_chunk.length]
          if dest_chunk.length = source_chunk.length ∧ dest_chunk = source_chunk then
            let sub := copyLoop fuel faults (src.drop BUFFER_SIZE) dest1
                (bc + source_chunk.length) (k + 2)
            ⟨sub.dest, sub.bc, sub.ops, evs ++ sub.events, sub.result⟩
          else if dest_chunk.length = source_chunk.length then
            let r := rewriteTail faults (src.drop BUFFER_SIZE) dest1 dest.pos
                dest_chunk.length source_chunk bc (k + 2) true
            ⟨r.dest, r.bc, r.ops, evs ++ r.events, r.result⟩
          else if source_chunk.length < dest_chunk.length then
            let r := rewriteTail faults (src.drop BUFFER_SIZE) dest1 dest.pos
                dest_chunk.length source_chunk bc (k + 2) false
            ⟨r.dest, r.bc, r.ops, evs ++ r.events, r.result⟩
          else
            let r := rewriteTail faults (src.drop BUFFER_SIZE) dest1 dest.pos
                dest_chunk.length source_chunk bc (k + 2) true
            ⟨r.dest, r.bc, r.ops, evs ++ r.events, r.result⟩

/-- The whole routine `copy` under a fault oracle: open the destination
(I/O call 0; created empty when absent, which is modelled by passing `D = []`),
run the comparison loop starting at cursor 0, then `set_len bytes_copied` and
return `Ok(bytes_copied)`. -/
def copyF (faults : List (Option Nat)) (S D : List Nat) : CopyResult :=
  match faultAt faults 0 with
  | some e => ⟨⟨D, 0⟩, 0, 1, [], .error (.ioError e)⟩
  | none =>
    let r := copyLoop (S.length + 1) faults S ⟨D, 0⟩ 0 1
    match r.result with
    | .error e => ⟨r.dest, r.bc, r.ops, r.events, .error e⟩
    | .ok () =>
      match faultAt faults r.ops with
      | some e => ⟨r.dest, r.bc, r.ops + 1, r.events, .error (.ioError e)⟩
      | none =>
        ⟨fsetLen r.dest r.bc, r.bc, r.ops + 1,
          r.events ++ [Event.truncate r.dest.content.length r.bc], .ok r.bc⟩

/-- The routine with no injected faults: source byte sequence `S`, initial
destination content `D` (absent destination = `[]`). -/
def copy (S D : List Nat) : CopyResult := copyF [] S D

/-- Number of leading chunk comparisons that match (same read counts, same
bytes), fuel-indexed in step with `copyLoop`. -/
def matchedChunksAux : Nat → List Nat → List Nat → Nat
  | 0, _, _ => 0
  | fuel + 1, s, d =>
    if s.take BUFFER_SIZE ≠ [] ∧ d.take BUFFER_SIZE = s.take BUFFER_SIZE then
      1 + matchedChunksAux fuel (s.drop BUFFER_SIZE) (d.drop BUFFER_SIZE)
    else 0

/-- Number of leading `BUFFER_SIZE`-chunks on which source `s` and destination
`d` agree exactly (the chunks before the first divergence, in content or in
availability of further bytes). -/
def matchedPrefixChunks (s d : List Nat) : Nat := matchedChunksAux (s.length + 1) s d

end LazyCopy

namespace LazyCopy

/-! ### Basic facts about the file primitives -/

theorem fwrite_pos (f : FileState) (d : List Nat) : (fwrite f d).pos = f.pos + d.length := rfl

theorem fwrite_content (f : FileState) (d : List Nat) (h : f.pos ≤ f.content.length) :
    (fwrite f d).content = f.content.take f.pos ++ d ++ f.content.drop (f.pos + d.length) := by
  simp [fwrite, Nat.sub_eq_zero_of_le h]

theorem fwrite_length (f : FileState) (d : List Nat) (h : f.pos ≤ f.content.length) :
    (fwrite f d).content.length = max f.content.length (f.pos + d.length) := by
  simp [fwrite_content f d h, List.length_take, List.length_drop]
  omega

theorem fsetLen_length (f : FileState) (n : Nat) : (fsetLen f n).content.length = n := by
  simp [fsetLen, List.length_take, List.length_replicate]
  omega

theorem take_len_append (a rest : List Nat) : (a ++ rest).take a.length = a := by
  rw [List.take_append_eq_append_take]
  simp

theorem drop_len_append (a rest : List Nat) : (a ++ rest).drop a.length = rest := by
  rw [List.drop_append_eq_append_drop]
  simp


theorem take_append_of_len (a b : List Nat) (n : Nat) (h : a.length = n) : (a ++ b).take n = a := by
  subst h
  exact take_len_append a b

theorem drop_append_of_len (a b : List Nat) (n : Nat) (h : a.length = n) : (a ++ b).drop n = b := by
  subst h
  exact drop_len_append a b

/-! ### Specification of the shared rewrite tail (no injected faults) -/

theorem fwrite_eq (f : FileState) (d : List Nat) (h : f.pos ≤ f.content.length) :
    fwrite f d
      = ⟨f.content.take f.pos ++ d ++ f.content.drop (f.pos + d.length), f.pos + d.length⟩ := by
  unfold fwrite
  rw [Nat.sub_eq_zero_of_le h]
  simp

theorem rewriteTail_false_spec (rest : List Nat) (dest1 : FileState) (entryPos dbr : Nat)
    (sc : List Nat) (bc k : Nat)
    (hpos : dest1.pos = entryPos + dbr) (hle : entryPos ≤ dest1.content.length) :
    rewriteTail [] rest dest1 entryPos dbr sc bc k false =
      ⟨⟨dest1.content.take entryPos ++ sc ++ dest1.content.drop (entryPos + sc.length),
        entryPos + sc.length⟩,
       bc + sc.length, k + 2,
       [Event.rewind entryPos dest1.pos (-(dbr : Int)) entryPos, Event.write entryPos sc],
       .ok ()⟩ := by
  have htarget : ((dest1.pos : Int) + -(dbr : Int)) = (entryPos : Int) := by
    rw [hpos]; push_cast; ring
  have hneg : ¬ ((dest1.pos : Int) + -(dbr : Int) < 0) := by
    rw [htarget]; exact Int.not_lt.mpr (Int.natCast_nonneg _)
  have htn : ((dest1.pos : Int) + -(dbr : Int)).toNat = entryPos := by
    rw [htarget]; exact Int.toNat_natCast entryPos
  simp only [rewriteTail, faultAt, htn, if_neg hneg]
  rw [fwrite_eq ⟨dest1.content, entryPos⟩ sc (by simpa using hle)]
  simp

theorem rewriteTail_true_spec (rest : List Nat) (dest1 : FileState) (entryPos dbr : Nat)
    (sc : List Nat) (bc k : Nat)
    (hpos : dest1.pos = entryPos + dbr) (hle : entryPos ≤ dest1.content.length) :
    rewriteTail [] rest dest1 entryPos dbr sc bc k true =
      ⟨⟨dest1.content.take entryPos ++ sc ++ rest ++
          dest1.content.drop (entryPos + sc.length + rest.length),
        entryPos + sc.length + rest.length⟩,
       bc + sc.length + rest.length, k + 3,
       [Event.rewind entryPos dest1.pos (-(dbr : Int)) entryPos, Event.write entryPos sc,
        Event.copyRest (entryPos + sc.length) rest],
       .ok ()⟩ := by
  have htarget : ((dest1.pos : Int) + -(dbr : Int)) = (entryPos : Int) := by
    rw [hpos]; push_cast; ring
  have hneg : ¬ ((dest1.pos : Int) + -(dbr : Int) < 0) := by
    rw [htarget]; exact Int.not_lt.mpr (Int.natCast_nonneg _)
  have htn : ((dest1.pos : Int) + -(dbr : Int)).toNat = entryPos := by
    rw [htarget]; exact Int.toNat_natCast entryPos
  have hlen1 : ((dest1.content.take entryPos ++ sc) : List Nat).length = entryPos + sc.length := by
    simp [List.length_take]
    omega
  have hle2 : entryPos + sc.length ≤
      (dest1.content.take entryPos ++ sc ++ dest1.content.drop (entryPos + sc.length)).length := by
    simp [List.length_take]
    omega
  have htk : (dest1.content.take entryPos ++ sc ++
      dest1.content.drop (entryPos + sc.length)).take (entryPos + sc.length)
      = dest1.content.take entryPos ++ sc :=
    take_append_of_len _ _ _ hlen1
  have hdr : (dest1.content.take entryPos ++ sc ++
      dest1.content.drop (entryPos + sc.length)).drop (entryPos + sc.length + rest.length)
      = dest1.content.drop (entryPos + sc.length + rest.length) := by
    rw [List.drop_append_eq_append_drop, hlen1,
        List.drop_eq_nil_of_le (le_of_eq_of_le hlen1 (by omega)), List.drop_drop]
    simp
  simp only [rewriteTail, faultAt, htn, if_neg hneg]
  rw [fwrite_eq ⟨dest1.content, entryPos⟩ sc (by simpa using hle)]
  rw [fwrite_eq ⟨dest1.content.take entryPos ++ sc ++
      dest1.content.drop (entryPos + sc.length), entryPos + sc.length⟩ rest (by simpa using hle2)]
  simp only [htk, hdr]
  simp

/-! ### Total correctness of the comparison loop (no injected faults) -/

theorem copyLoop_ok (fuel : Nat) : ∀ (src : List Nat) (dest : FileState) (bc k : Nat),
    src.length < fuel → dest.pos = bc → dest.pos ≤ dest.content.length →
    (copyLoop fuel [] src dest bc k).result = .ok () ∧
    (copyLoop fuel [] src dest bc k).bc = bc + src.length ∧
    (copyLoop fuel [] src dest bc k).dest.pos = bc + src.length ∧
    bc + src.length ≤ (copyLoop fuel [] src dest bc k).dest.content.length ∧
    (copyLoop fuel [] src dest bc k).dest.content.take (bc + src.length)
      = dest.content.take bc ++ src := by
  induction fuel with
  | zero =>
    intro src dest bc k hfuel _ _
    exact absurd hfuel (Nat.not_lt_zero _)
  | succ fuel ih =>
    intro src dest bc k hfuel hpos hle
    have hB : 0 < BUFFER_SIZE := by norm_num [BUFFER_SIZE]
    have hsc : (src.take BUFFER_SIZE).length = min BUFFER_SIZE src.length := by
      simp [List.length_take]
    have hdl : (src.drop BUFFER_SIZE).length = src.length - BUFFER_SIZE := by
      simp [List.length_drop]
    have hdc : ((dest.content.drop dest.pos).take BUFFER_SIZE).length
        = min BUFFER_SIZE (dest.content.length - dest.pos) := by
      simp [List.length_take, List.length_drop]
    by_cases h0 : (src.take BUFFER_SIZE).length = 0
    · have hnil : src = [] := List.eq_nil_of_length_eq_zero (by omega)
      subst hnil
      rw [hpos] at hle
      simp [copyLoop, faultAt, hpos, hle]
    · by_cases hm : ((dest.content.drop dest.pos).take BUFFER_SIZE).length
          = (src.take BUFFER_SIZE).length ∧
          (dest.content.drop dest.pos).take BUFFER_SIZE = src.take BUFFER_SIZE
      · -- the chunk matches: the loop continues
        have hkey : (dest.content.drop dest.pos).take ((src.take BUFFER_SIZE).length)
            = src.take BUFFER_SIZE := by
          have h1 : (dest.content.drop dest.pos).take ((src.take BUFFER_SIZE).length)
              = ((dest.content.drop dest.pos).take BUFFER_SIZE).take
                  ((src.take BUFFER_SIZE).length) := by
            rw [List.take_take]
            congr 1
            omega
          rw [h1, hm.2, List.take_length]
        have hm1 := hm.1
        obtain ⟨ih1, ih2, ih3, ih4, ih5⟩ := ih (src.drop BUFFER_SIZE)
          ⟨dest.content, dest.pos + ((dest.content.drop dest.pos).take BUFFER_SIZE).length⟩
          (bc + (src.take BUFFER_SIZE).length) (k + 2)
          (by omega) (by simp only; omega) (by simp only; omega)
        have hidx : bc + (src.take BUFFER_SIZE).length + (src.drop BUFFER_SIZE).length
            = bc + src.length := by omega
        simp only [copyLoop, faultAt, if_neg h0, if_pos hm]
        refine ⟨ih1, by rw [ih2]; omega, by rw [ih3]; omega, ?_, ?_⟩
        · refine le_trans (le_of_eq hidx.symm) ?_
          simpa using ih4
        · rw [← hidx]
          simp only at ih5 ⊢
          rw [ih5, List.take_add, ← hpos, hkey, List.append_assoc, List.take_append_drop]
      · -- the chunk diverges: one of the three rewrite arms runs, then the loop ends
        have hplen : (dest.content.take dest.pos).length = dest.pos := by
          simp [List.length_take]
          omega
        by_cases heq : ((dest.content.drop dest.pos).take BUFFER_SIZE).length
            = (src.take BUFFER_SIZE).length
        · -- equal read counts, differing bytes
          simp only [copyLoop, faultAt, if_neg h0, if_neg hm, if_pos heq]
          rw [rewriteTail_true_spec _ _ _ _ _ _ _ rfl (by simpa using hle)]
          refine ⟨rfl, by simp; omega, by simp; omega, ?_, ?_⟩
          · simp [List.length_take, List.length_drop]
            omega
          · simp only
            rw [take_append_of_len _ _ _ (by simp [List.length_take, List.length_drop]; omega)]
            rw [hpos, List.append_assoc, List.take_append_drop]
        · by_cases hgt : (src.take BUFFER_SIZE).length
              < ((dest.content.drop dest.pos).take BUFFER_SIZE).length
          · -- the destination read more bytes than the source
            have hsmall : src.length < BUFFER_SIZE := by omega
            have hall : src.take BUFFER_SIZE = src := List.take_of_length_le (by omega)
            simp only [copyLoop, faultAt, if_neg h0, if_neg hm, if_neg heq, if_pos hgt]
            rw [rewriteTail_false_spec _ _ _ _ _ _ _ rfl (by simpa using hle)]
            refine ⟨rfl, by simp; omega, by simp; omega, ?_, ?_⟩
            · simp [List.length_take, List.length_drop]
              omega
            · simp only
              rw [take_append_of_len _ _ _ (by simp [List.length_take]; omega)]
              rw [hpos, hall]
          · -- the destination read fewer bytes than the source
            simp only [copyLoop, faultAt, if_neg h0, if_neg hm, if_neg heq, if_neg hgt]
            rw [rewriteTail_true_spec _ _ _ _ _ _ _ rfl (by simpa using hle)]
            refine ⟨rfl, by simp; omega, by simp; omega, ?_, ?_⟩
            · simp [List.length_take, List.length_drop]
              omega
            · simp only
              rw [take_append_of_len _ _ _ (by simp [List.length_take, List.length_drop]; omega)]
              rw [hpos, List.append_assoc, List.take_append_drop]

/-! ### The routine as a whole (no injected faults) -/

theorem copy_eq (S D : List Nat) :
    copy S D =
      ⟨fsetLen (copyLoop (S.length + 1) [] S ⟨D, 0⟩ 0 1).dest
          (copyLoop (S.length + 1) [] S ⟨D, 0⟩ 0 1).bc,
        (copyLoop (S.length + 1) [] S ⟨D, 0⟩ 0 1).bc,
        (copyLoop (S.length + 1) [] S ⟨D, 0⟩ 0 1).ops + 1,
        (copyLoop (S.length + 1) [] S ⟨D, 0⟩ 0 1).events
          ++ [Event.truncate (copyLoop (S.length + 1) [] S ⟨D, 0⟩ 0 1).dest.content.length
                (copyLoop (S.length + 1) [] S ⟨D, 0⟩ 0 1).bc],
        .ok (copyLoop (S.length + 1) [] S ⟨D, 0⟩ 0 1).bc⟩ := by
  have h := (copyLoop_ok (S.length + 1) S ⟨D, 0⟩ 0 1 (by omega) rfl (by simp)).1
  unfold copy copyF
  simp [faultAt, h]

theorem copy_spec (S D : List Nat) :
    (copy S D).result = .ok S.length ∧
    (copy S D).bc = S.length ∧
    (copy S D).dest.content = S := by
  obtain ⟨h1, h2, h3, h4, h5⟩ := copyLoop_ok (S.length + 1) S ⟨D, 0⟩ 0 1 (by omega) rfl (by simp)
  have hbc : (copyLoop (S.length + 1) [] S ⟨D, 0⟩ 0 1).bc = S.length := by simpa using h2
  have htk : (copyLoop (S.length + 1) [] S ⟨D, 0⟩ 0 1).dest.content.take S.length = S := by
    simpa using h5
  have hln : S.length ≤ (copyLoop (S.length + 1) [] S ⟨D, 0⟩ 0 1).dest.content.length := by
    simpa using h4
  rw [copy_eq]
  refine ⟨by simp [hbc], by simp [hbc], ?_⟩
  simp only [fsetLen, hbc]
  rw [htk, Nat.sub_eq_zero_of_le hln]
  simp

/-- C1: for every source byte sequence `S` and every initial destination state
`D` (absent — modelled as `[]` —, empty, shorter, longer, equal length with
different content, or byte-for-byte equal to `S`), a successful `copy` leaves
the destination's bytes exactly `S` and returns `len S`. -/
theorem copy_syncs_any_initial_dest (S D : List Nat) :
    (copy S D).dest.content = S ∧ (copy S D).result = .ok S.length :=
  ⟨(copy_spec S D).2.2, (copy_spec S D).1⟩

/-- C4: if the initial destination `D` is longer than the source `S` and
byte-identical to `S` up to `len S`, then after a successful call the
destination's length is exactly `len S` and its content is exactly `S`. -/
theorem copy_truncates_identical_longer_dest (S D : List Nat)
    (_hlen : S.length < D.length) (_hpre : D.take S.length = S) :
    (copy S D).dest.content.length = S.length ∧
    (copy S D).dest.content = S ∧
    (copy S D).result = .ok S.length := by
  have h := copy_spec S D
  exact ⟨by rw [h.2.2], h.2.2, h.1⟩

theorem copy_truncates_identical_longer_dest_witness :
    (([1, 2] : List Nat).length < ([1, 2, 3] : List Nat).length ∧
      ([1, 2, 3] : List Nat).take ([1, 2] : List Nat).length = [1, 2]) ∧
    (copy [1, 2] [1, 2, 3]).dest.content = [1, 2] :=
  ⟨⟨by decide, by decide⟩,
    (copy_truncates_identical_longer_dest [1, 2] [1, 2, 3] (by decide) (by decide)).2.1⟩

/-- C6: for an empty source stream the loop body performs no comparison and no
write (the trace holds a single zero-byte source read and the final
truncation), the destination is truncated to zero length, and the call returns
0, whatever the initial destination content. -/
theorem copy_empty_source (D : List Nat) :
    (copy [] D).result = .ok 0 ∧ (copy [] D).dest.content = [] ∧
    (copy [] D).events = [Event.srcRead 0, Event.truncate D.length 0] := by
  simp [copy, copyF, copyLoop, faultAt, fsetLen]

/-! ### The loop never truncates: the only truncation is the final one -/

theorem rewriteTail_no_truncate (faults : List (Option Nat)) (rest : List Nat)
    (dest1 : FileState) (entryPos dbr : Nat) (sc : List Nat) (bc k : Nat) (w : Bool)
    (a b : Nat) :
    Event.truncate a b ∉ (rewriteTail faults rest dest1 entryPos dbr sc bc k w).events := by
  unfold rewriteTail
  repeat' split
  all_goals first
    | (simp; done)
    | (dsimp only; split <;> simp)

theorem copyLoop_no_truncate (fuel : Nat) : ∀ (faults : List (Option Nat)) (src : List Nat)
    (dest : FileState) (bc k a b : Nat),
    Event.truncate a b ∉ (copyLoop fuel faults src dest bc k).events := by
  induction fuel with
  | zero => intro faults src dest bc k a b; simp [copyLoop]
  | succ fuel ih =>
    intro faults src dest bc k a b
    rcases hf : faultAt faults k with _ | e
    · by_cases h0 : (src.take BUFFER_SIZE).length = 0
      · simp [copyLoop, hf, h0]
      · rcases hf1 : faultAt faults (k + 1) with _ | e
        · by_cases hm : ((dest.content.drop dest.pos).take BUFFER_SIZE).length
              = (src.take BUFFER_SIZE).length ∧
              (dest.content.drop dest.pos).take BUFFER_SIZE = src.take BUFFER_SIZE
          · simp only [copyLoop, hf, hf1, if_neg h0, if_pos hm]
            simp [List.mem_append, ih]
          · by_cases heq : ((dest.content.drop dest.pos).take BUFFER_SIZE).length
                = (src.take BUFFER_SIZE).length
            · simp only [copyLoop, hf, hf1, if_neg h0, if_neg hm, if_pos heq]
              simp [List.mem_append, rewriteTail_no_truncate]
            · by_cases hgt : (src.take BUFFER_SIZE).length
                  < ((dest.content.drop dest.pos).take BUFFER_SIZE).length
              · simp only [copyLoop, hf, hf1, if_neg h0, if_neg hm, if_neg heq, if_pos hgt]
                simp [List.mem_append, rewriteTail_no_truncate]
              · simp only [copyLoop, hf, hf1, if_neg h0, if_neg hm, if_neg heq, if_neg hgt]
                simp [List.mem_append, rewriteTail_no_truncate]
        · have hsne : src ≠ [] := by
            intro hh
            subst hh
            simp at h0
          simp [copyLoop, hf, hf1, hsne, BUFFER_SIZE]
    · simp [copyLoop, hf]

/-- C5: on every successful exit, the destination file's length equals the
running byte count, the returned value is that count, and the one truncation
event in the trace (the final `set_len`) sets exactly that length. -/
theorem copyF_success_sets_length_and_count (faults : List (Option Nat)) (S D : List Nat)
    (n : Nat) (h : (copyF faults S D).result = .ok n) :
    n = (copyF faults S D).bc ∧
    (copyF faults S D).dest.content.length = n ∧
    ∀ a b, Event.truncate a b ∈ (copyF faults S D).events → b = n := by
  unfold copyF at h ⊢
  dsimp only at h ⊢
  split at h
  · simp at h
  · split at h
    · simp at h
    · split at h
      · simp at h
      · dsimp only at h ⊢
        have hn : (copyLoop (S.length + 1) faults S ⟨D, 0⟩ 0 1).bc = n := by simpa using h
        refine ⟨hn.symm, by rw [fsetLen_length, hn], ?_⟩
        intro a b hab
        rcases List.mem_append.mp hab with hin | hin
        · exact absurd hin (copyLoop_no_truncate _ _ _ _ _ _ _ _)
        · simp at hin
          omega

theorem copyF_success_sets_length_and_count_witness :
    (copyF [] [] []).result = .ok 0 ∧ (copyF [] [] []).dest.content.length = 0 :=
  ⟨rfl, (copyF_success_sets_length_and_count [] [] [] 0 rfl).2.1⟩

/-! ### A run over an identical destination performs no write -/

theorem copyLoop_identical (fuel : Nat) : ∀ (src : List Nat) (dest : FileState) (bc k : Nat),
    src.length < fuel → dest.pos = bc → dest.content.drop dest.pos = src →
    (copyLoop fuel [] src dest bc k).result = .ok () ∧
    (copyLoop fuel [] src dest bc k).dest.content = dest.content ∧
    (copyLoop fuel [] src dest bc k).bc = bc + src.length ∧
    ∀ e ∈ (copyLoop fuel [] src dest bc k).events, e.isWrite = false := by
  induction fuel with
  | zero =>
    intro src dest bc k hfuel _ _
    exact absurd hfuel (Nat.not_lt_zero _)
  | succ fuel ih =>
    intro src dest bc k hfuel hpos hsame
    have hB : 0 < BUFFER_SIZE := by norm_num [BUFFER_SIZE]
    have hsc : (src.take BUFFER_SIZE).length = min BUFFER_SIZE src.length := by
      simp [List.length_take]
    have hdl : (src.drop BUFFER_SIZE).length = src.length - BUFFER_SIZE := by
      simp [List.length_drop]
    by_cases h0 : (src.take BUFFER_SIZE).length = 0
    · have hnil : src = [] := List.eq_nil_of_length_eq_zero (by omega)
      subst hnil
      simp [copyLoop, faultAt, Event.isWrite]
    · have hdc : (dest.content.drop dest.pos).take BUFFER_SIZE = src.take BUFFER_SIZE := by
        rw [hsame]
      have hm : ((dest.content.drop dest.pos).take BUFFER_SIZE).length
          = (src.take BUFFER_SIZE).length ∧
          (dest.content.drop dest.pos).take BUFFER_SIZE = src.take BUFFER_SIZE :=
        ⟨by rw [hdc], hdc⟩
      have hlen_eq := hm.1
      have hstep : dest.content.drop
          (dest.pos + ((dest.content.drop dest.pos).take BUFFER_SIZE).length)
          = src.drop BUFFER_SIZE := by
        rw [hlen_eq, ← List.drop_drop, hsame]
        rcases le_or_lt BUFFER_SIZE src.length with hge | hlt
        · congr 1
          omega
        · rw [List.drop_eq_nil_of_le (by omega), List.drop_eq_nil_of_le (by omega)]
      obtain ⟨ih1, ih2, ih3, ih4⟩ := ih (src.drop BUFFER_SIZE)
        ⟨dest.content, dest.pos + ((dest.content.drop dest.pos).take BUFFER_SIZE).length⟩
        (bc + (src.take BUFFER_SIZE).length) (k + 2)
        (by omega) (by simp only; omega) (by exact hstep)
      simp only [copyLoop, faultAt, if_neg h0, if_pos hm]
      refine ⟨ih1, by simpa using ih2, by rw [ih3]; omega, ?_⟩
      intro e he
      rcases List.mem_append.mp he with hin | hin
      · simp at hin
        rcases hin with rfl | rfl <;> rfl
      · exact ih4 e hin

theorem copy_identical_spec (S : List Nat) :
    (copy S S).dest.content = S ∧
    (∀ e ∈ (copy S S).events, e.isWrite = false) ∧
    (∀ a b, Event.truncate a b ∈ (copy S S).events → a = b) := by
  obtain ⟨h1, h2, h3, h4⟩ := copyLoop_identical (S.length + 1) S ⟨S, 0⟩ 0 1
    (by omega) rfl (by simp)
  have hbc : (copyLoop (S.length + 1) [] S ⟨S, 0⟩ 0 1).bc = S.length := by simpa using h3
  have hct : (copyLoop (S.length + 1) [] S ⟨S, 0⟩ 0 1).dest.content = S := by simpa using h2
  have hcl : (copyLoop (S.length + 1) [] S ⟨S, 0⟩ 0 1).dest.content.length = S.length := by
    rw [hct]
  rw [copy_eq]
  dsimp only
  refine ⟨?_, ?_, ?_⟩
  · simp [fsetLen, hbc, hct]
  · intro e he
    rcases List.mem_append.mp he with hin | hin
    · exact h4 e hin
    · simp at hin
      subst hin
      rfl
  · intro a b hab
    rcases List.mem_append.mp hab with hin | hin
    · exact absurd hin (copyLoop_no_truncate _ _ _ _ _ _ _ _)
    · simp at hin
      omega

/-- C2: running `copy` twice with the same source yields the same destination
as one run; the second run performs no content-changing write (its trace holds
no `write` and no `copyRest` event), and its only truncation is to the length
the file already has. -/
theorem copy_second_run_is_readonly (S D : List Nat) :
    (copy S (copy S D).dest.content).dest.content = (copy S D).dest.content ∧
    (∀ e ∈ (copy S (copy S D).dest.content).events, e.isWrite = false) ∧
    (∀ a b, Event.truncate a b ∈ (copy S (copy S D).dest.content).events → a = b) := by
  rw [(copy_spec S D).2.2]
  exact copy_identical_spec S

theorem copy_second_run_is_readonly_witness :
    Event.truncate 1 1 ∈ (copy [1] (copy [1] []).dest.content).events ∧ (1 : Nat) = 1 :=
  ⟨by decide, (copy_second_run_is_readonly [1] []).2.2 1 1 (by decide)⟩

/-! ### Writes happen only from the first diverging chunk onwards -/

theorem copyLoop_nil (fuel : Nat) (h : 0 < fuel) (dest : FileState) (bc k : Nat) :
    copyLoop fuel [] [] dest bc k = ⟨dest, bc, k + 1, [Event.srcRead 0], .ok ()⟩ := by
  rcases fuel with _ | fuel
  · omega
  · simp [copyLoop, faultAt]

theorem copyLoop_writes_lower_bound (fuel : Nat) :
    ∀ (src : List Nat) (dest : FileState) (bc k : Nat),
    src.length < fuel → dest.pos = bc → dest.pos ≤ dest.content.length →
    ∀ p data, (Event.write p data ∈ (copyLoop fuel [] src dest bc k).events ∨
        Event.copyRest p data ∈ (copyLoop fuel [] src dest bc k).events) →
      bc + BUFFER_SIZE * matchedChunksAux fuel src (dest.content.drop dest.pos) ≤ p := by
  induction fuel with
  | zero =>
    intro src dest bc k hfuel
    exact absurd hfuel (Nat.not_lt_zero _)
  | succ fuel ih =>
    intro src dest bc k hfuel hpos hle p data hmem
    have hB : 0 < BUFFER_SIZE := by norm_num [BUFFER_SIZE]
    have hsc : (src.take BUFFER_SIZE).length = min BUFFER_SIZE src.length := by
      simp [List.length_take]
    have hdl : (src.drop BUFFER_SIZE).length = src.length - BUFFER_SIZE := by
      simp [List.length_drop]
    have hdc : ((dest.content.drop dest.pos).take BUFFER_SIZE).length
        = min BUFFER_SIZE (dest.content.length - dest.pos) := by
      simp [List.length_take, List.length_drop]
    by_cases h0 : (src.take BUFFER_SIZE).length = 0
    · have hnil : src = [] := List.eq_nil_of_length_eq_zero (by omega)
      subst hnil
      simp [copyLoop, faultAt] at hmem
    · have hsne : src.take BUFFER_SIZE ≠ [] := by
        intro hh
        rw [hh] at h0
        simp at h0
      by_cases hm : ((dest.content.drop dest.pos).take BUFFER_SIZE).length
          = (src.take BUFFER_SIZE).length ∧
          (dest.content.drop dest.pos).take BUFFER_SIZE = src.take BUFFER_SIZE
      · have haux : matchedChunksAux (fuel + 1) src (dest.content.drop dest.pos)
            = 1 + matchedChunksAux fuel (src.drop BUFFER_SIZE)
                ((dest.content.drop dest.pos).drop BUFFER_SIZE) := by
          rw [matchedChunksAux, if_pos ⟨hsne, hm.2⟩]
        simp only [copyLoop, faultAt, if_neg h0, if_pos hm] at hmem
        have hmem' : Event.write p data ∈ (copyLoop fuel [] (src.drop BUFFER_SIZE)
              ⟨dest.content,
                dest.pos + ((dest.content.drop dest.pos).take BUFFER_SIZE).length⟩
              (bc + (src.take BUFFER_SIZE).length) (k + 2)).events ∨
            Event.copyRest p data ∈ (copyLoop fuel [] (src.drop BUFFER_SIZE)
              ⟨dest.content,
                dest.pos + ((dest.content.drop dest.pos).take BUFFER_SIZE).length⟩
              (bc + (src.take BUFFER_SIZE).length) (k + 2)).events := by
          rcases hmem with hin | hin
          · rcases List.mem_append.mp hin with h1 | h1
            · simp at h1
            · exact Or.inl h1
          · rcases List.mem_append.mp hin with h1 | h1
            · simp at h1
            · exact Or.inr h1
        rcases lt_or_ge src.length BUFFER_SIZE with hlt | hge
        · have hnil : src.drop BUFFER_SIZE = [] := List.drop_eq_nil_of_le (by omega)
          rw [hnil, copyLoop_nil fuel (by omega)] at hmem'
          simp at hmem'
        · have hscB : (src.take BUFFER_SIZE).length = BUFFER_SIZE := by omega
          have hb := ih (src.drop BUFFER_SIZE)
            ⟨dest.content,
              dest.pos + ((dest.content.drop dest.pos).take BUFFER_SIZE).length⟩
            (bc + (src.take BUFFER_SIZE).length) (k + 2)
            (by omega) (by simp only; omega) (by simp only; omega) p data hmem'
          dsimp only at hb
          rw [hm.1, hscB, ← List.drop_drop] at hb
          rw [haux, Nat.mul_add, Nat.mul_one]
          omega
      · have hdne : ¬ (((dest.content.drop dest.pos).take BUFFER_SIZE).length
            = (src.take BUFFER_SIZE).length ∧
            (dest.content.drop dest.pos).take BUFFER_SIZE = src.take BUFFER_SIZE) := hm
        have haux : matchedChunksAux (fuel + 1) src (dest.content.drop dest.pos) = 0 := by
          rw [matchedChunksAux, if_neg]
          intro hc
          exact hdne ⟨by rw [hc.2], hc.2⟩
        rw [haux, Nat.mul_zero, Nat.add_zero]
        by_cases heq : ((dest.content.drop dest.pos).take BUFFER_SIZE).length
            = (src.take BUFFER_SIZE).length
        · simp only [copyLoop, faultAt, if_neg h0, if_neg hm, if_pos heq] at hmem
          rw [rewriteTail_true_spec _ _ _ _ _ _ _ rfl (by simpa using hle)] at hmem
          simp [List.mem_append] at hmem
          rcases hmem with ⟨rfl, _⟩ | ⟨rfl, _⟩ <;> omega
        · by_cases hgt : (src.take BUFFER_SIZE).length
              < ((dest.content.drop dest.pos).take BUFFER_SIZE).length
          · simp only [copyLoop, faultAt, if_neg h0, if_neg hm, if_neg heq,
              if_pos hgt] at hmem
            rw [rewriteTail_false_spec _ _ _ _ _ _ _ rfl (by simpa using hle)] at hmem
            simp [List.mem_append] at hmem
            rcases hmem with ⟨rfl, _⟩
            omega
          · simp only [copyLoop, faultAt, if_neg h0, if_neg hm, if_neg heq,
              if_neg hgt] at hmem
            rw [rewriteTail_true_spec _ _ _ _ _ _ _ rfl (by simpa using hle)] at hmem
            simp [List.mem_append] at hmem
            rcases hmem with ⟨rfl, _⟩ | ⟨rfl, _⟩ <;> omega

/-- C3: `copy` writes only from the first chunk at which source and
destination diverge — every `write_all` or `io::copy` in the trace lands at an
offset at least `BUFFER_SIZE` times the number of matching leading chunks — and
when the initial destination equals the source exactly, no write occurs at all
and the destination content after the call is bit-for-bit its content before. -/
theorem copy_writes_only_from_first_divergence (S D : List Nat) :
    (∀ p data,
      (Event.write p data ∈ (copy S D).events ∨
        Event.copyRest p data ∈ (copy S D).events) →
      BUFFER_SIZE * matchedPrefixChunks S D ≤ p) ∧
    (D = S →
      (∀ e ∈ (copy S D).events, e.isWrite = false) ∧ (copy S D).dest.content = D) := by
  constructor
  · intro p data hmem
    rw [copy_eq] at hmem
    dsimp only at hmem
    have hmem' : Event.write p data ∈ (copyLoop (S.length + 1) [] S ⟨D, 0⟩ 0 1).events ∨
        Event.copyRest p data ∈ (copyLoop (S.length + 1) [] S ⟨D, 0⟩ 0 1).events := by
      rcases hmem with hin | hin
      · rcases List.mem_append.mp hin with h1 | h1
        · exact Or.inl h1
        · simp at h1
      · rcases List.mem_append.mp hin with h1 | h1
        · exact Or.inr h1
        · simp at h1
    have hb := copyLoop_writes_lower_bound (S.length + 1) S ⟨D, 0⟩ 0 1
      (by omega) rfl (by simp) p data hmem'
    simpa [matchedPrefixChunks] using hb
  · intro hDS
    subst hDS
    exact ⟨(copy_identical_spec D).2.1, (copy_identical_spec D).1⟩

theorem copy_writes_only_from_first_divergence_witness :
    (Event.write 0 [1] ∈ (copy [1] [2]).events ∨
      Event.copyRest 0 [1] ∈ (copy [1] [2]).events) ∧
    BUFFER_SIZE * matchedPrefixChunks [1] [2] ≤ 0 :=
  ⟨Or.inl (by decide),
    (copy_writes_only_from_first_divergence [1] [2]).1 0 [1] (Or.inl (by decide))⟩

/-! ### Cursor invariant and seek safety along the trace -/

theorem copyLoop_cursor_events (fuel : Nat) :
    ∀ (src : List Nat) (dest : FileState) (bc k : Nat),
    src.length < fuel → dest.pos = bc → dest.pos ≤ dest.content.length →
    ∀ e ∈ (copyLoop fuel [] src dest bc k).events,
      (∀ p b n, e = Event.destRead p b n → p = b) ∧
      (∀ cs pb off pa, e = Event.rewind cs pb off pa →
        pa = cs ∧ off.natAbs ≤ BUFFER_SIZE ∧ off ≤ 0 ∧ 0 ≤ (pb : Int) + off) := by
  induction fuel with
  | zero =>
    intro src dest bc k hfuel
    exact absurd hfuel (Nat.not_lt_zero _)
  | succ fuel ih =>
    intro src dest bc k hfuel hpos hle e he
    have hB : 0 < BUFFER_SIZE := by norm_num [BUFFER_SIZE]
    have hsc : (src.take BUFFER_SIZE).length = min BUFFER_SIZE src.length := by
      simp [List.length_take]
    have hdl : (src.drop BUFFER_SIZE).length = src.length - BUFFER_SIZE := by
      simp [List.length_drop]
    have hdc : ((dest.content.drop dest.pos).take BUFFER_SIZE).length
        = min BUFFER_SIZE (dest.content.length - dest.pos) := by
      simp [List.length_take, List.length_drop]
    by_cases h0 : (src.take BUFFER_SIZE).length = 0
    · have hnil : src = [] := List.eq_nil_of_length_eq_zero (by omega)
      subst hnil
      simp [copyLoop, faultAt] at he
      subst he
      exact ⟨by simp, by simp⟩
    · by_cases hm : ((dest.content.drop dest.pos).take BUFFER_SIZE).length
          = (src.take BUFFER_SIZE).length ∧
          (dest.content.drop dest.pos).take BUFFER_SIZE = src.take BUFFER_SIZE
      · have hm1 := hm.1
        simp only [copyLoop, faultAt, if_neg h0, if_pos hm] at he
        rcases List.mem_append.mp he with hin | hin
        · simp at hin
          rcases hin with rfl | rfl
          · exact ⟨by simp, by simp⟩
          · refine ⟨?_, by simp⟩
            intro p b n h
            cases h
            exact hpos
        · exact ih (src.drop BUFFER_SIZE)
            ⟨dest.content,
              dest.pos + ((dest.content.drop dest.pos).take BUFFER_SIZE).length⟩
            (bc + (src.take BUFFER_SIZE).length) (k + 2)
            (by omega) (by simp only; omega) (by simp only; omega) e hin
      · by_cases heq : ((dest.content.drop dest.pos).take BUFFER_SIZE).length
            = (src.take BUFFER_SIZE).length
        · simp only [copyLoop, faultAt, if_neg h0, if_neg hm, if_pos heq] at he
          rw [rewriteTail_true_spec _ _ _ _ _ _ _ rfl (by simpa using hle)] at he
          simp at he
          rcases he with rfl | rfl | rfl | rfl | rfl
          · exact ⟨by simp, by simp⟩
          · refine ⟨?_, by simp⟩
            intro p b n h
            cases h
            exact hpos
          · refine ⟨by simp, ?_⟩
            intro cs pb off pa h
            cases h
            refine ⟨rfl, by simp; omega, by omega, by push_cast; omega⟩
          · exact ⟨by simp, by simp⟩
          · exact ⟨by simp, by simp⟩
        · by_cases hgt : (src.take BUFFER_SIZE).length
              < ((dest.content.drop dest.pos).take BUFFER_SIZE).length
          · simp only [copyLoop, faultAt, if_neg h0, if_neg hm, if_neg heq,
              if_pos hgt] at he
            rw [rewriteTail_false_spec _ _ _ _ _ _ _ rfl (by simpa using hle)] at he
            simp at he
            rcases he with rfl | rfl | rfl | rfl
            · exact ⟨by simp, by simp⟩
            · refine ⟨?_, by simp⟩
              intro p b n h
              cases h
              exact hpos
            · refine ⟨by simp, ?_⟩
              intro cs pb off pa h
              cases h
              refine ⟨rfl, by simp; omega, by omega, by push_cast; omega⟩
            · exact ⟨by simp, by simp⟩
          · simp only [copyLoop, faultAt, if_neg h0, if_neg hm, if_neg heq,
              if_neg hgt] at he
            rw [rewriteTail_true_spec _ _ _ _ _ _ _ rfl (by simpa using hle)] at he
            simp at he
            rcases he with rfl | rfl | rfl | rfl | rfl
            · exact ⟨by simp, by simp⟩
            · refine ⟨?_, by simp⟩
              intro p b n h
              cases h
              exact hpos
            · refine ⟨by simp, ?_⟩
              intro cs pb off pa h
              cases h
              refine ⟨rfl, by simp; omega, by omega, by push_cast; omega⟩
            · exact ⟨by simp, by simp⟩
            · exact ⟨by simp, by simp⟩

/-- C9: at the start of every comparison step the destination cursor sits at
the chunk start, equal to the running `bytes_copied` (every `destRead` event
records equal cursor and count), and every backward seek lands exactly on that
chunk start (every `rewind` event records `posAfter = chunkStart`). -/
theorem copy_cursor_invariant (S D : List Nat) :
    ∀ e ∈ (copy S D).events,
      (∀ p b n, e = Event.destRead p b n → p = b) ∧
      (∀ cs pb off pa, e = Event.rewind cs pb off pa → pa = cs) := by
  intro e he
  rw [copy_eq] at he
  dsimp only at he
  rcases List.mem_append.mp he with hin | hin
  · have h := copyLoop_cursor_events (S.length + 1) S ⟨D, 0⟩ 0 1 (by omega) rfl
      (by simp) e hin
    exact ⟨h.1, fun cs pb off pa hh => (h.2 cs pb off pa hh).1⟩
  · simp at hin
    subst hin
    exact ⟨by simp, by simp⟩

theorem copy_cursor_invariant_witness :
    Event.destRead 0 0 1 ∈ (copy [1] [2]).events ∧ (0 : Nat) = 0 :=
  ⟨by decide, (copy_cursor_invariant [1] [2] (Event.destRead 0 0 1) (by decide)).1 0 0 1 rfl⟩

/-- C10: every backward seek in a run of `copy` moves by at most `BUFFER_SIZE`
bytes (so the `as i64` cast of `dest_bytes_read ≤ 8192` cannot overflow), never
past the start of the file (the seek target is never negative, so the
relative-seek error branch is unreachable), and the whole fault-free run
succeeds. -/
theorem copy_seek_safety (S D : List Nat) :
    (copy S D).result = .ok S.length ∧
    ∀ e ∈ (copy S D).events, ∀ cs pb off pa, e = Event.rewind cs pb off pa →
      off.natAbs ≤ BUFFER_SIZE ∧ off ≤ 0 ∧ 0 ≤ (pb : Int) + off := by
  refine ⟨(copy_spec S D).1, ?_⟩
  intro e he cs pb off pa hh
  rw [copy_eq] at he
  dsimp only at he
  rcases List.mem_append.mp he with hin | hin
  · have h := copyLoop_cursor_events (S.length + 1) S ⟨D, 0⟩ 0 1 (by omega) rfl
      (by simp) e hin
    exact (h.2 cs pb off pa hh).2
  · simp at hin
    subst hin
    simp at hh

theorem copy_seek_safety_witness :
    Event.rewind 0 1 (-1) 0 ∈ (copy [1] [2]).events ∧
    ((-1 : Int).natAbs ≤ BUFFER_SIZE ∧ (-1 : Int) ≤ 0 ∧ 0 ≤ ((1 : Nat) : Int) + (-1)) :=
  ⟨by decide,
    (copy_seek_safety [1] [2]).2 (Event.rewind 0 1 (-1) 0) (by decide) 0 1 (-1) 0 rfl⟩

/-- C8: whenever an iteration reads more bytes from the destination than from
the source, the loop rewinds to the chunk start, overwrites that region with
the source bytes read this iteration, advances the running count by that
amount, and exits — with no further source bytes remaining and no `io::copy`;
the stale tail is left for the final truncation. -/
theorem copyLoop_dest_chunk_longer (fuel : Nat) (src : List Nat) (dest : FileState)
    (bc k : Nat) (hne : src ≠ [])
    (hgt : (src.take BUFFER_SIZE).length
      < ((dest.content.drop dest.pos).take BUFFER_SIZE).length)
    (hle : dest.pos ≤ dest.content.length) :
    copyLoop (fuel + 1) [] src dest bc k =
      ⟨⟨dest.content.take dest.pos ++ src ++ dest.content.drop (dest.pos + src.length),
        dest.pos + src.length⟩,
       bc + src.length, k + 4,
       [Event.srcRead src.length,
        Event.destRead dest.pos bc ((dest.content.drop dest.pos).take BUFFER_SIZE).length,
        Event.rewind dest.pos
          (dest.pos + ((dest.content.drop dest.pos).take BUFFER_SIZE).length)
          (-((((dest.content.drop dest.pos).take BUFFER_SIZE).length : Nat) : Int)) dest.pos,
        Event.write dest.pos src],
       .ok ()⟩ ∧
    src.drop BUFFER_SIZE = [] := by
  have hB : 0 < BUFFER_SIZE := by norm_num [BUFFER_SIZE]
  have hsc : (src.take BUFFER_SIZE).length = min BUFFER_SIZE src.length := by
    simp [List.length_take]
  have hdc : ((dest.content.drop dest.pos).take BUFFER_SIZE).length
      = min BUFFER_SIZE (dest.content.length - dest.pos) := by
    simp [List.length_take, List.length_drop]
  have hlen0 : src.length ≠ 0 := fun hh => hne (List.eq_nil_of_length_eq_zero hh)
  have h0 : ¬ (src.take BUFFER_SIZE).length = 0 := by omega
  have hsmall : src.length < BUFFER_SIZE := by omega
  have hall : src.take BUFFER_SIZE = src := List.take_of_length_le (by omega)
  have hm : ¬ (((dest.content.drop dest.pos).take BUFFER_SIZE).length
      = (src.take BUFFER_SIZE).length ∧
      (dest.content.drop dest.pos).take BUFFER_SIZE = src.take BUFFER_SIZE) :=
    fun hc => absurd hc.1 (by omega)
  have heq : ¬ (((dest.content.drop dest.pos).take BUFFER_SIZE).length
      = (src.take BUFFER_SIZE).length) := by omega
  constructor
  · simp only [copyLoop, faultAt, if_neg h0, if_neg hm, if_neg heq, if_pos hgt]
    rw [rewriteTail_false_spec _ _ _ _ _ _ _ rfl (by simpa using hle), hall]
    congr 1
  · exact List.drop_eq_nil_of_le (by omega)

theorem copyLoop_dest_chunk_longer_witness :
    (([5] : List Nat) ≠ [] ∧
      (([5] : List Nat).take BUFFER_SIZE).length
        < ((([1, 2] : List Nat).drop ((⟨[1, 2], 0⟩ : FileState).pos)).take BUFFER_SIZE).length ∧
      (⟨[1, 2], 0⟩ : FileState).pos ≤ (⟨[1, 2], 0⟩ : FileState).content.length) ∧
    (copyLoop 1 [] [5] ⟨[1, 2], 0⟩ 0 1).result = .ok () ∧
    ([5] : List Nat).drop BUFFER_SIZE = [] := by
  have h := copyLoop_dest_chunk_longer 0 [5] ⟨[1, 2], 0⟩ 0 1 (by decide) (by decide) (by decide)
  exact ⟨⟨by decide, by decide, by decide⟩, by rw [h.1], h.2⟩

/-! ### Error propagation: any failure is the underlying injected I/O error -/

theorem rewriteTail_error_injected (faults : List (Option Nat)) (rest : List Nat)
    (dest1 : FileState) (entryPos dbr : Nat) (sc : List Nat) (bc k : Nat) (w : Bool)
    (hdbr : dbr ≤ dest1.pos) (e : Err)
    (h : (rewriteTail faults rest dest1 entryPos dbr sc bc k w).result = .error e) :
    ∃ i code, faultAt faults i = some code ∧ e = .ioError code := by
  unfold rewriteTail at h
  split at h
  · rename_i c hf
    dsimp only at h
    simp only [Except.error.injEq] at h
    exact ⟨k, c, hf, h.symm⟩
  · rename_i hf
    dsimp only at h
    split at h
    · rename_i ht
      exfalso
      omega
    · split at h
      · rename_i c hf1
        dsimp only at h
        simp only [Except.error.injEq] at h
        exact ⟨k + 1, c, hf1, h.symm⟩
      · rename_i hf1
        split at h
        · split at h
          · rename_i c hf2
            dsimp only at h
            simp only [Except.error.injEq] at h
            exact ⟨k + 2, c, hf2, h.symm⟩
          · dsimp only at h
            simp at h
        · dsimp only at h
          simp at h

theorem copyLoop_error_injected (fuel : Nat) : ∀ (faults : List (Option Nat)) (src : List Nat)
    (dest : FileState) (bc k : Nat) (e : Err),
    src.length < fuel →
    (copyLoop fuel faults src dest bc k).result = .error e →
    ∃ i code, faultAt faults i = some code ∧ e = .ioError code := by
  induction fuel with
  | zero =>
    intro faults src dest bc k e hfuel
    exact absurd hfuel (Nat.not_lt_zero _)
  | succ fuel ih =>
    intro faults src dest bc k e hfuel h
    have hB : 0 < BUFFER_SIZE := by norm_num [BUFFER_SIZE]
    have hsc : (src.take BUFFER_SIZE).length = min BUFFER_SIZE src.length := by
      simp [List.length_take]
    have hdl : (src.drop BUFFER_SIZE).length = src.length - BUFFER_SIZE := by
      simp [List.length_drop]
    simp only [copyLoop] at h
    split at h
    · rename_i c hf
      dsimp only at h
      simp only [Except.error.injEq] at h
      exact ⟨k, c, hf, h.symm⟩
    · rename_i hf
      split at h
      · simp at h
      · rename_i h0
        split at h
        · rename_i c hf1
          dsimp only at h
          simp only [Except.error.injEq] at h
          exact ⟨k + 1, c, hf1, h.symm⟩
        · rename_i hf1
          split at h
          · try dsimp only at h
            exact ih faults (src.drop BUFFER_SIZE) _ _ _ e (by omega) h
          · split at h
            · try dsimp only at h
              exact rewriteTail_error_injected _ _ _ _ _ _ _ _ _
                (Nat.le_add_left _ _) e h
            · split at h
              · try dsimp only at h
                exact rewriteTail_error_injected _ _ _ _ _ _ _ _ _
                  (Nat.le_add_left _ _) e h
              · try dsimp only at h
                exact rewriteTail_error_injected _ _ _ _ _ _ _ _ _
                  (Nat.le_add_left _ _) e h

/-- C7: any I/O failure aborts `copy` and is returned to the caller unaltered:
whenever a run with injected faults ends in an error, that error is exactly one
of the injected underlying I/O errors (in particular it is never the
interpreter's own seek-failure), with no reclassification; the destination
state and trace returned alongside are whatever the completed prefix of
operations produced. -/
theorem copyF_error_propagation (faults : List (Option Nat)) (S D : List Nat) (e : Err)
    (h : (copyF faults S D).result = .error e) :
    ∃ i code, faultAt faults i = some code ∧ e = .ioError code := by
  unfold copyF at h
  dsimp only at h
  split at h
  · rename_i c hf
    dsimp only at h
    simp only [Except.error.injEq] at h
    exact ⟨0, c, hf, h.symm⟩
  · rename_i hf
    split at h
    · rename_i e' hr
      dsimp only at h
      simp only [Except.error.injEq] at h
      subst h
      exact copyLoop_error_injected (S.length + 1) faults S ⟨D, 0⟩ 0 1 e' (by omega) hr
    · split at h
      · rename_i c hf2
        dsimp only at h
        simp only [Except.error.injEq] at h
        exact ⟨_, c, hf2, h.symm⟩
      · dsimp only at h
        simp at h

theorem copyF_error_propagation_witness :
    (copyF [some 42] [1] [2]).result = .error (.ioError 42) ∧
    ∃ i code, faultAt [some 42] i = some code ∧ Err.ioError 42 = .ioError code :=
  ⟨rfl, copyF_error_propagation [some 42] [1] [2] (.ioError 42) rfl⟩
